import Mathlib

/-!
Verification of the spreadsheet standardization engine (`logic.py`).

Shallow embedding conventions:
* Python strings are modelled as `List Char`.
* Missing / NaN cell values are modelled as `none : Option (List Char)`.
* Python `float` arithmetic in the duration computation is modelled by `ℚ`.
* `unicodedata.normalize('NFKD', ·).encode('ascii','ignore')` acts as the
  identity on ASCII text and is modelled as dropping non-ASCII characters.
-/

/-- Python whitespace characters recognised by `str.strip` and the regex
class `\s` (on ASCII text). -/
def pyIsSpace (c : Char) : Bool :=
  c = ' ' || c = '\t' || c = '\n' || c = '\r' || c = '\x0b' || c = '\x0c'

/-- Characters in the regex class `\w` on ASCII text. -/
def isWordChar (c : Char) : Bool := c.isAlphanum || c = '_'

/-- Model of Python `str.strip()`: drop leading and trailing whitespace. -/
def pyStrip (l : List Char) : List Char :=
  ((l.dropWhile pyIsSpace).reverse.dropWhile pyIsSpace).reverse

/-- Model of Python `str.lower()` on ASCII text. -/
def lowerList (l : List Char) : List Char := l.map Char.toLower

/-- Tail of `TextUtils.normalize_text`: collapse each maximal whitespace run
to one space, the model of `re.sub(r"\s+", " ", text)`.  The boolean flag
records whether the previous character was part of a whitespace run. -/
def collapseWsAux (prevWs : Bool) : List Char → List Char
  | [] => []
  | c :: rest =>
    if pyIsSpace c then
      if prevWs then collapseWsAux true rest else ' ' :: collapseWsAux true rest
    else c :: collapseWsAux false rest

/-- Model of `TextUtils.normalize_text` from `logic.py`: lower-case, strip,
NFKD-to-ASCII fold (identity on ASCII, non-ASCII dropped), replace newline
and forward slash by a space, collapse whitespace runs. -/
def normalize_text (l : List Char) : List Char :=
  collapseWsAux false
    (((pyStrip (lowerList l)).filter (fun c => c.toNat < 128)).map
      (fun c => if c = '\n' || c = '/' then ' ' else c))

/-- Boundary test for the regex lookaround `(?<!\w)` / `(?!\w)`: the
neighbouring position is absent or holds a non-word character. -/
def boundaryOk (oc : Option Char) : Bool :=
  match oc with
  | none => true
  | some c => !isWordChar c

/-- Substring occurrence, the model of Python `phrase in text`. -/
def isSubstr (p : List Char) : List Char → Bool
  | [] => p.isPrefixOf ([] : List Char)
  | c :: rest => p.isPrefixOf (c :: rest) || isSubstr p rest

/-- Scan for an occurrence of `p` in the remaining text such that both
neighbours are word boundaries; `prev` is the character just before the
remaining text. -/
def wwAux (p : List Char) (prev : Option Char) : List Char → Bool
  | [] => p.isPrefixOf ([] : List Char) && boundaryOk prev
  | c :: rest =>
    (p.isPrefixOf (c :: rest) && boundaryOk prev &&
      boundaryOk (((c :: rest).drop p.length).head?)) ||
    wwAux p (some c) rest

/-- Model of `TextUtils.contains_whole_word`: both arguments are normalized,
then the phrase must occur at a word boundary
(regex `(?<!\w)phrase(?!\w)`). -/
def contains_whole_word (text phrase : List Char) : Bool :=
  wwAux (normalize_text phrase) none (normalize_text text)

/-- Body of the `for p in priority` loop of `ColumnMatcher.score_match`. -/
def priorityStep (txt : List Char) (score : Int) (p : List Char) : Int :=
  let pn := normalize_text p
  if txt = pn then max score 100
  else if contains_whole_word txt pn then max score 90
  else if isSubstr pn txt then max score 80
  else score

/-- Body of the `for k in keywords` loop of `ColumnMatcher.score_match`. -/
def keywordStep (txt : List Char) (score : Int) (k : List Char) : Int :=
  let kn := normalize_text k
  if txt = kn then max score 70
  else if contains_whole_word txt kn then max score 60
  else if isSubstr kn txt then max score 40
  else score

/-- Body of the `for a in avoid` loop of `ColumnMatcher.score_match`. -/
def avoidStep (txt : List Char) (score : Int) (a : List Char) : Int :=
  let an := normalize_text a
  if contains_whole_word txt an || isSubstr an txt then score - 50 else score

/-- Model of `ColumnMatcher.score_match` from `logic.py`, translated
loop by loop (priority ladder 100/90/80, keyword ladder 70/60/40 as running
maxima, then 50 subtracted per matching avoid term). -/
def score_match (col : List Char) (keywords priority avoid : List (List Char)) : Int :=
  let txt := normalize_text col
  avoid.foldl (avoidStep txt)
    (keywords.foldl (keywordStep txt) (priority.foldl (priorityStep txt) 0))

/-- Ladder value a single priority term contributes (`0` when the term does
not match at all). -/
def priorityLadder (txt pn : List Char) : Int :=
  if txt = pn then 100
  else if contains_whole_word txt pn then 90
  else if isSubstr pn txt then 80
  else 0

/-- Ladder value a single keyword term contributes. -/
def keywordLadder (txt kn : List Char) : Int :=
  if txt = kn then 70
  else if contains_whole_word txt kn then 60
  else if isSubstr kn txt then 40
  else 0

/-- An avoid term hits when it occurs as a whole word or as a substring. -/
def avoidHit (txt an : List Char) : Bool :=
  contains_whole_word txt an || isSubstr an txt

/-- Maximum of the per-term ladder values, seeded with `0`. -/
def ladderMax (f : List Char → Int) (terms : List (List Char)) : Int :=
  (terms.map f).foldr max 0

/-- Specification-side reformulation of the score: the larger of the best
priority-ladder value and the best keyword-ladder value, minus 50 for each
avoid term that hits. -/
def score_spec (col : List Char) (keywords priority avoid : List (List Char)) : Int :=
  let txt := normalize_text col
  max (ladderMax (fun p => priorityLadder txt (normalize_text p)) priority)
      (ladderMax (fun k => keywordLadder txt (normalize_text k)) keywords)
    - 50 * (avoid.countP (fun a => avoidHit txt (normalize_text a)))

/-- Insert an element into a sorted list, after all existing elements that
compare `≤` to it; this is the stable insertion step. -/
def insertSorted (le : α → α → Bool) (a : α) : List α → List α
  | [] => [a]
  | b :: rest => if le b a then b :: insertSorted le a rest else a :: b :: rest

/-- Stable sort by repeated insertion; extensionally equal to Python's
stable `list.sort` for the same boolean total preorder. -/
def stableSort (le : α → α → Bool) (l : List α) : List α :=
  l.foldl (fun acc x => insertSorted le x acc) []

/-- Comparison realised by the Python sort key `(-score, len(name))`:
higher score first, shorter name first among equal scores. -/
def matchKeyLe (a b : (List Char) × Int) : Bool :=
  b.2 < a.2 || (a.2 = b.2 && a.1.length ≤ b.1.length)

/-- Model of `ColumnMatcher.find_best_match` from `logic.py`: score every
column, keep the ones with positive score, sort by descending score with
shorter name as tie-break, return the winner and the ranked list. -/
def find_best_match (columns : List (List Char))
    (keywords priority avoid : List (List Char)) :
    Option (List Char) × List ((List Char) × Int) :=
  let scored := columns.filterMap (fun col =>
    if 0 < score_match col keywords priority avoid then
      some (col, score_match col keywords priority avoid)
    else none)
  if scored.isEmpty then (none, [])
  else
    let sorted := stableSort matchKeyLe scored
    (sorted.head?.map Prod.fst, sorted)

/-- A calendar date as produced by a successful `pd.to_datetime` parse.
An unparseable value (`NaT`) is modelled as `none : Option PDate`. -/
structure PDate where
  year : ℕ
  month : ℕ
  day : ℕ
deriving DecidableEq, Repr

/-- Proleptic-Gregorian leap year test, as used by `calendar.monthrange`. -/
def isLeapYear (y : ℕ) : Bool :=
  y % 4 = 0 && (y % 100 ≠ 0 || y % 400 = 0)

/-- Number of days of a month, the model of `calendar.monthrange(y, m)[1]`. -/
def monthLength (y m : ℕ) : ℕ :=
  if m = 2 then (if isLeapYear y then 29 else 28)
  else if m = 4 || m = 6 || m = 9 || m = 11 then 30
  else 31

/-- Strict lexicographic order on dates, the model of `<` on timestamps. -/
def dateLt (a b : PDate) : Bool :=
  a.year < b.year ||
    (a.year = b.year && (a.month < b.month || (a.month = b.month && a.day < b.day)))

/-- Linear month index of a date's month; the first-of-month timestamps
used by the `full_months` loop compare exactly as these indices do. -/
def monthIdx (d : PDate) : ℕ := d.year * 12 + (d.month - 1)

/-- The `while current < Timestamp(end.year, end.month, 1)` loop of
`calculate_no_of_months`, counting one per `MonthBegin` step, expressed on
linear month indices. -/
def fullMonthsLoop (cur target : ℕ) : ℕ :=
  if h : cur < target then fullMonthsLoop (cur + 1) target + 1 else 0
termination_by target - cur
decreasing_by omega

/-- Round to two decimal places, the model of Python `round(x, 2)` on the
rational value of the float (ties, which round to even in Python, do not
occur in the program's reachable values). -/
def round2 (q : ℚ) : ℚ := ((⌊q * 100 + 1 / 2⌋ : ℤ) : ℚ) / 100

/-- Model of `DataProcessor.calculate_no_of_months` from `logic.py`:
`none` when either date is missing or start is after end, otherwise the
first-month fraction plus the loop-counted whole months plus the
last-month fraction, rounded to two decimals. -/
def calculate_no_of_months (start stop : Option PDate) : Option ℚ :=
  match start, stop with
  | some s, some e =>
    if dateLt e s then none
    else
      let dsm := monthLength s.year s.month
      let fmf : ℚ := ((dsm : ℚ) - (s.day : ℚ) + 1) / (dsm : ℚ)
      let dem := monthLength e.year e.month
      let lmf : ℚ := (e.day : ℚ) / (dem : ℚ)
      let full : ℕ := fullMonthsLoop (monthIdx s + 1) (monthIdx e)
      some (round2 (fmf + (full : ℚ) + lmf))
  | _, _ => none

/-- Count of whole calendar months strictly between the start month and the
end month, written as the specification phrases it: the number of month
indices strictly between the two. -/
def monthsStrictlyBetween (s e : PDate) : ℕ :=
  ((List.range (monthIdx e)).filter (fun i => monthIdx s < i)).length

/-- Specification-side duration formula: start-month remainder fraction,
plus whole months strictly between, plus end-month elapsed fraction,
rounded to two decimals. -/
def duration_spec (s e : PDate) : ℚ :=
  round2
    (((monthLength s.year s.month : ℚ) - (s.day : ℚ) + 1) / (monthLength s.year s.month : ℚ)
      + (monthsStrictlyBetween s e : ℚ)
      + (e.day : ℚ) / (monthLength e.year e.month : ℚ))

/-- Model of `re.sub(r"\s*m", "", value)`: every occurrence of an `m`
preceded by a (possibly empty) maximal whitespace run is removed.  A
whitespace character is dropped exactly when the whitespace run it starts
is followed by an `m`; a bare `m` is always dropped. -/
def subSpaceM : List Char → List Char
  | [] => []
  | c :: rest =>
    if c = 'm' then subSpaceM rest
    else if pyIsSpace c && ((rest.dropWhile pyIsSpace).head? = some 'm') then subSpaceM rest
    else c :: subSpaceM rest

/-- Model of Python `str.replace(",", ".")`. -/
def replaceCommaDot (l : List Char) : List Char :=
  l.map (fun c => if c = ',' then '.' else c)

/-- Model of `DataProcessor.normalize_dimension` from `logic.py`: `none`
for missing or blank input, otherwise strip, lower-case, commas to
periods, and remove the unit markers via `re.sub(r"\s*m", "", ·)`. -/
def normalize_dimension (v : Option (List Char)) : Option (List Char) :=
  match v with
  | none => none
  | some s =>
    if pyStrip s = [] then none
    else some (subSpaceM (replaceCommaDot (lowerList (pyStrip s))))

/-- Variant following the claim's wording instead of the code: strips only
one trailing unit marker `m` (with the whitespace just before it), leaving
the rest of the text unchanged.  Used to witness where claim and code
part ways. -/
def normalize_dimension_trailing (v : Option (List Char)) : Option (List Char) :=
  match v with
  | none => none
  | some s =>
    if pyStrip s = [] then none
    else
      let t := replaceCommaDot (lowerList (pyStrip s))
      let r := t.reverse
      some (if r.head? = some 'm' then ((r.drop 1).dropWhile pyIsSpace).reverse else t)

/-- Model of `re.split(r"[xX]", size)`: split on every `x` or `X`. -/
def splitOnXx : List Char → List (List Char)
  | [] => [[]]
  | c :: rest =>
    if c = 'x' || c = 'X' then [] :: splitOnXx rest
    else
      match splitOnXx rest with
      | [] => [[c]]
      | p :: ps => (c :: p) :: ps

/-- Python truthiness of an optional string: present and non-empty. -/
def truthyStr (o : Option (List Char)) : Bool :=
  match o with
  | some s => !s.isEmpty
  | none => false

/-- Suffix a truthy dimension string with the unit marker `m`, the model of
`f"{base}m" if base else None`. -/
def mSuffix (o : Option (List Char)) : Option (List Char) :=
  if truthyStr o then some ((o.getD []) ++ ['m']) else none

/-- Model of `DataProcessor.process_size_base_height` from `logic.py`,
returning the canonical `(Base, Height, Size)` triple for one row. -/
def process_size_base_height (rowBase rowHeight rowSize : Option (List Char)) :
    Option (List Char) × Option (List Char) × Option (List Char) :=
  let base := normalize_dimension rowBase
  let height := normalize_dimension rowHeight
  let size : List Char := rowSize.getD []
  let step :=
    if !(pyStrip size).isEmpty then
      let parts := splitOnXx size
      if parts.length = 2 then
        (normalize_dimension (some (parts.getD 0 [])),
         normalize_dimension (some (parts.getD 1 [])), size)
      else (base, height, size)
    else if truthyStr base && truthyStr height then
      (base, height, (base.getD []) ++ "m x ".data ++ (height.getD []) ++ ['m'])
    else (base, height, size)
  (mSuffix step.1, mSuffix step.2.1,
    if step.2.2.isEmpty then none else some step.2.2)

/-- Read two decimal digits, the model of the regex fragment `\d{2}`. -/
def takeDigit2 (l : List Char) : Option (ℕ × List Char) :=
  match l with
  | a :: b :: rest =>
    if a.isDigit && b.isDigit then
      some ((a.toNat - 48) * 10 + (b.toNat - 48), rest)
    else none
  | _ => none

/-- Consume one expected character. -/
def expectChar (c : Char) (l : List Char) : Option (List Char) :=
  match l with
  | x :: rest => if x = c then some rest else none
  | [] => none

/-- Read a `dd/mm/yy` token, the model of `\d{2}/\d{2}/\d{2}`. -/
def takeDate (l : List Char) : Option ((ℕ × ℕ × ℕ) × List Char) :=
  (takeDigit2 l).bind fun dl =>
    (expectChar '/' dl.2).bind fun l2 =>
      (takeDigit2 l2).bind fun ml =>
        (expectChar '/' ml.2).bind fun l4 =>
          (takeDigit2 l4).map fun yl => ((dl.1, ml.1, yl.1), yl.2)

/-- Try to match the literal-range marker
`Disponibil:\s*(\d{2}/\d{2}/\d{2})\s*:\s*(\d{2}/\d{2}/\d{2})` at the start
of the text, yielding the two `(day, month, year)` triples. -/
def matchDispAt (l : List Char) : Option ((ℕ × ℕ × ℕ) × (ℕ × ℕ × ℕ)) :=
  if ("Disponibil:".data).isPrefixOf l then
    let l1 := (l.drop ("Disponibil:".data).length).dropWhile pyIsSpace
    (takeDate l1).bind fun r1 =>
      (expectChar ':' (r1.2.dropWhile pyIsSpace)).bind fun l4 =>
        (takeDate (l4.dropWhile pyIsSpace)).map fun r2 => (r1.1, r2.1)
  else none

/-- Model of `re.search` for the marker pattern: try every position from
the left and return the first match. -/
def searchDisp : List Char → Option ((ℕ × ℕ × ℕ) × (ℕ × ℕ × ℕ))
  | [] => none
  | c :: rest =>
    match matchDispAt (c :: rest) with
    | some r => some r
    | none => searchDisp rest

/-- Two-digit-year pivot used by the `dateutil` parser behind
`pd.to_datetime`: `00`–`68` map into the 2000s, `69`–`99` into the 1900s. -/
def fullYear (y : ℕ) : ℕ := if y ≤ 68 then 2000 + y else 1900 + y

/-- Model of `pd.to_datetime(·, dayfirst=True)` on a `dd/mm/yy` token:
day-first, with the `dateutil` fallback that swaps day and month when the
month position exceeds 12 but the day position can serve as a month;
`none` when no valid date results. -/
def parse_ddmmyy (t : ℕ × ℕ × ℕ) : Option PDate :=
  let fy := fullYear t.2.2
  let dm := if 12 < t.2.1 && t.1 ≤ 12 then (t.2.1, t.1) else (t.1, t.2.1)
  if 1 ≤ dm.2 && dm.2 ≤ 12 && 1 ≤ dm.1 && dm.1 ≤ monthLength fy dm.2 then
    some ⟨fy, dm.2, dm.1⟩
  else none

/-- Decimal digits of a number, left-padded to two places, as `%m`/`%d`
produce. -/
def pad2 (n : ℕ) : List Char :=
  if n < 10 then '0' :: Nat.toDigits 10 n else Nat.toDigits 10 n

/-- Model of `strftime("%Y-%m-%d")`. -/
def formatISO (d : PDate) : List Char :=
  Nat.toDigits 10 d.year ++ ['-'] ++ pad2 d.month ++ ['-'] ++ pad2 d.day

/-- Model of the row-level `extract_disponibil` closure inside
`DataProcessor.deal_with_literal_dates`: missing start yields
`(None, None)`; a found marker with two parseable dates rewrites both
fields to ISO; otherwise the pair passes through unchanged. -/
def extract_disponibil (x currentEnd : Option (List Char)) :
    Option (List Char) × Option (List Char) :=
  match x with
  | none => (none, none)
  | some s =>
    match searchDisp s with
    | some r =>
      match parse_ddmmyy r.1, parse_ddmmyy r.2 with
      | some d1, some d2 => (some (formatISO d1), some (formatISO d2))
      | _, _ => (some s, currentEnd)
    | none => (some s, currentEnd)

/-- Model of `DataProcessor.deal_with_literal_dates` applied to the
`(Start, End)` column pair of every row. -/
def deal_with_literal_dates (rows : List (Option (List Char) × Option (List Char))) :
    List (Option (List Char) × Option (List Char)) :=
  rows.map (fun r => extract_disponibil r.1 r.2)

/-- A raw grid cell: `none` models an empty (NaN) cell. -/
abbrev Cell := Option (List Char)

/-- Number of non-empty cells of a row, the model of pandas `row.count()`. -/
def countNonEmpty (row : List Cell) : ℕ := row.countP (fun c => c.isSome)

/-- The header-scanning loop of `extract_standardized_dataframe`: first row
index (from `i` on) whose non-empty cell count is at least 9. -/
def header_row_scan : List (List Cell) → ℕ → Option ℕ
  | [], _ => none
  | row :: rest, i =>
    if 9 ≤ countNonEmpty row then some i else header_row_scan rest (i + 1)

/-- Model of the header-row sniffing of `extract_standardized_dataframe`. -/
def header_row_index (grid : List (List Cell)) : Option ℕ :=
  header_row_scan grid 0

/-- The normalized headers consolidated into "Photo Link"
(`DataProcessor.HYPERLINK_HEADERS`). -/
def HYPERLINK_HEADERS : List (List Char) :=
  ["poza", "photo", "schita", "link poza", "foto", "link foto", "imagini", "picture",
   "catalog", "photo/video", "photo & map",
   "cod", "pagina prezentare", "code", "poza locatie", "imagine", "imagini 1",
   "link poza suport publicitar", "foto locatie", "adresa", "site"].map String.data

/-- The normalized headers consolidated into "Tech Details"
(`TECH_DETAILS_HEADERS`). -/
def TECH_DETAILS_HEADERS : List (List Char) :=
  ["schita", "foto schita", "production sketch", "schita productie",
   "schita de productie pentru material publicitar",
   "link schita productie", "technical details"].map String.data

/-- Candidate source columns for "Photo Link": the columns whose normalized
header belongs to `HYPERLINK_HEADERS`, in column order. -/
def candidate_cols_photo (columns : List (List Char)) : List (List Char) :=
  columns.filter (fun c => HYPERLINK_HEADERS.contains (normalize_text c))

/-- Candidate source columns for "Tech Details". -/
def candidate_cols_tech (columns : List (List Char)) : List (List Char) :=
  columns.filter (fun c => TECH_DETAILS_HEADERS.contains (normalize_text c))

/-- Test of `URL_RE = ^(?:https?://|www\.)` (case-insensitive) on text that
was already stripped. -/
def startsWithUrl (u : List Char) : Bool :=
  ("http://".data).isPrefixOf (lowerList u) ||
  ("https://".data).isPrefixOf (lowerList u) ||
  ("www.".data).isPrefixOf (lowerList u)

/-- Visible-text fallback of the hyperlink reconciliation: strip the cell
text, require a URL-looking prefix, and promote a bare `www.` prefix to
`http://`. -/
def visible_text_url (v : List Char) : Option (List Char) :=
  let u := pyStrip v
  if startsWithUrl u then
    some (if ("www.".data).isPrefixOf (lowerList u) then "http://".data ++ u else u)
  else none

/-- Hyperlink-map lookup for one cell: Python's `if url:` also rejects an
empty recorded target. -/
def recorded_url (hy : ℕ × ℕ → Option (List Char)) (r c : ℕ) : Option (List Char) :=
  match hy (r, c) with
  | some u => if u = [] then none else some u
  | none => none

/-- Model of the per-row link consolidation loop (`# --- Photo Link ---` /
`# --- Tech Details ---` in `extract_standardized_dataframe`): collect the
recorded hyperlinks over all candidate columns; only when none exists,
collect visible-text URLs instead; the first hit wins. -/
def resolve_row_link (hy : ℕ × ℕ → Option (List Char)) (xlRow : ℕ)
    (cands : List ℕ) (cellAt : ℕ → Option (List Char)) : Option (List Char) :=
  let fromMap := cands.filterMap (fun c => recorded_url hy xlRow c)
  let found :=
    if fromMap.isEmpty then cands.filterMap (fun c => (cellAt c).bind visible_text_url)
    else fromMap
  found.head?

/-- A configured semantic field: the `keywords` / `priority` / `avoid`
lists of one `groups.json` entry. -/
structure FieldCfg where
  keywords : List (List Char)
  priority : List (List Char)
  avoid : List (List Char)

/-- The skip test of the group-copy loop: configuration entries whose
normalized name is "photo link" or "tech details" are handled by the
dedicated hyperlink consolidation instead of the field matcher. -/
def isLinkFieldName (name : List Char) : Bool :=
  normalize_text name = "photo link".data || normalize_text name = "tech details".data

/-- Model of `DataProcessor.extract_standardized_dataframe` after a
successful read, as an ordered list of named columns.  The hyperlink map
`hy` stands for the resolver's output over the raw sheet (0-based
coordinates); data row `r` corresponds to sheet row `h + 1 + r`.  Header
cells are taken by value (an empty header cell contributes an empty name);
the index of a candidate column is its first occurrence, as
`df.columns.get_loc` yields. -/
def extract_standardized_dataframe (groups : List ((List Char) × FieldCfg))
    (grid : List (List Cell)) (hy : ℕ × ℕ → Option (List Char))
    (fileName : List Char) : List ((List Char) × List (List Char)) :=
  match header_row_index grid with
  | none => []
  | some h =>
    let columns : List (List Char) := (grid.getD h []).map (fun c => c.getD [])
    let dataRows := grid.drop (h + 1)
    let n := dataRows.length
    let cellAt : ℕ → ℕ → Cell := fun r c => (dataRows.getD r []).getD c none
    let candPhotoIdx :=
      (candidate_cols_photo columns).map (fun c => columns.findIdx (fun x => x == c))
    let candTechIdx :=
      (candidate_cols_tech columns).map (fun c => columns.findIdx (fun x => x == c))
    let photoCol := (List.range n).map (fun r =>
      (resolve_row_link hy (h + 1 + r) candPhotoIdx (fun c => cellAt r c)).getD [])
    let techCol := (List.range n).map (fun r =>
      (resolve_row_link hy (h + 1 + r) candTechIdx (fun c => cellAt r c)).getD [])
    let groupCols := (groups.filter (fun g => !(isLinkFieldName g.1))).map
      (fun g =>
        match (find_best_match columns g.2.keywords g.2.priority g.2.avoid).1 with
        | some best =>
          (g.1, (List.range n).map (fun r =>
            (cellAt r (columns.findIdx (fun x => x == best))).getD []))
        | none => (g.1, (List.range n).map (fun _ => ([] : List Char))))
    ("Photo Link".data, photoCol) :: ("Tech Details".data, techCol) ::
      groupCols ++ [("__source_file".data, (List.range n).map (fun _ => fileName))]

/-! ### Scoring: the fold equals the ladder formula -/

theorem ladderMax_nonneg (g : List Char → Int) (l : List (List Char)) :
    0 ≤ ladderMax g l := by
  induction l with
  | nil => simp [ladderMax]
  | cons p rest ih =>
    simp only [ladderMax, List.map_cons, List.foldr_cons] at ih ⊢
    exact le_trans ih (le_max_right _ _)

theorem ladderMax_cons (g : List Char → Int) (p : List Char) (l : List (List Char)) :
    ladderMax g (p :: l) = max (g p) (ladderMax g l) := rfl

theorem foldl_ladder_eq (g : List Char → Int) (step : Int → List Char → Int)
    (hstep : ∀ s p, 0 ≤ s → step s p = max s (g p)) :
    ∀ (l : List (List Char)) (init : Int), 0 ≤ init →
      l.foldl step init = max init (ladderMax g l) := by
  intro l
  induction l with
  | nil => intro init h; simp [ladderMax, max_eq_left h]
  | cons p rest ih =>
    intro init h
    have h1 : step init p = max init (g p) := hstep init p h
    have h2 : 0 ≤ max init (g p) := le_trans h (le_max_left _ _)
    calc (p :: rest).foldl step init = rest.foldl step (step init p) := rfl
      _ = max (max init (g p)) (ladderMax g rest) := by rw [h1]; exact ih _ h2
      _ = max init (max (g p) (ladderMax g rest)) := max_assoc _ _ _
      _ = max init (ladderMax g (p :: rest)) := by rw [ladderMax_cons]

theorem priorityLadder_nonneg (txt pn : List Char) : 0 ≤ priorityLadder txt pn := by
  unfold priorityLadder; split_ifs <;> norm_num

theorem keywordLadder_nonneg (txt kn : List Char) : 0 ≤ keywordLadder txt kn := by
  unfold keywordLadder; split_ifs <;> norm_num

theorem priorityStep_eq_max (txt : List Char) (s : Int) (p : List Char) (h : 0 ≤ s) :
    priorityStep txt s p = max s (priorityLadder txt (normalize_text p)) := by
  unfold priorityStep priorityLadder
  by_cases h1 : txt = normalize_text p
  · simp [h1]
  · by_cases h2 : contains_whole_word txt (normalize_text p) = true
    · simp [h1, h2]
    · by_cases h3 : isSubstr (normalize_text p) txt = true
      · simp [h1, h2, h3]
      · simp [h1, h2, h3, max_eq_left h]

theorem keywordStep_eq_max (txt : List Char) (s : Int) (k : List Char) (h : 0 ≤ s) :
    keywordStep txt s k = max s (keywordLadder txt (normalize_text k)) := by
  unfold keywordStep keywordLadder
  by_cases h1 : txt = normalize_text k
  · simp [h1]
  · by_cases h2 : contains_whole_word txt (normalize_text k) = true
    · simp [h1, h2]
    · by_cases h3 : isSubstr (normalize_text k) txt = true
      · simp [h1, h2, h3]
      · simp [h1, h2, h3, max_eq_left h]

theorem foldl_avoid_eq (txt : List Char) :
    ∀ (l : List (List Char)) (init : Int),
      l.foldl (avoidStep txt) init
        = init - 50 * l.countP (fun a => avoidHit txt (normalize_text a)) := by
  intro l
  induction l with
  | nil => intro init; simp
  | cons a rest ih =>
    intro init
    by_cases hhit : avoidHit txt (normalize_text a)
    · have hstep : avoidStep txt init a = init - 50 := by
        unfold avoidStep
        unfold avoidHit at hhit
        simp only [hhit, if_true]
      simp only [List.foldl_cons, hstep, ih, List.countP_cons, hhit, if_pos]
      push_cast
      ring
    · have hstep : avoidStep txt init a = init := by
        unfold avoidStep
        unfold avoidHit at hhit
        simp only [Bool.not_eq_true] at hhit
        simp [hhit]
      simp only [List.foldl_cons, hstep, ih, List.countP_cons, hhit, if_neg]
      simp

/-- C3: for every column name and configuration, the score equals the
running maximum over the ladder — 100/90/80 for priority terms and
70/60/40 for keyword terms, maxima rather than sums — minus 50 for each
avoid term that matches as a whole word or substring, cumulative and
uncapped, so negative totals are possible. -/
theorem score_match_eq_ladder_spec (col : List Char)
    (kws pri avs : List (List Char)) :
    score_match col kws pri avs = score_spec col kws pri avs := by
  unfold score_match score_spec
  set txt := normalize_text col with htxt
  have hpri := foldl_ladder_eq (fun p => priorityLadder txt (normalize_text p))
    (priorityStep txt) (fun s p h => priorityStep_eq_max txt s p h) pri 0 le_rfl
  have h0 : (0 : Int) ≤ max 0 (ladderMax (fun p => priorityLadder txt (normalize_text p)) pri) :=
    le_max_left _ _
  have hkw := foldl_ladder_eq (fun k => keywordLadder txt (normalize_text k))
    (keywordStep txt) (fun s k h => keywordStep_eq_max txt s k h) kws _ h0
  rw [foldl_avoid_eq, hpri, hkw,
    max_eq_right (ladderMax_nonneg (fun p => priorityLadder txt (normalize_text p)) pri)]

/-! ### Best-match selection -/

theorem insertSorted_perm (le : α → α → Bool) (a : α) :
    ∀ l : List α, (insertSorted le a l).Perm (a :: l) := by
  intro l
  induction l with
  | nil => simp [insertSorted]
  | cons b rest ih =>
    unfold insertSorted
    by_cases hb : le b a = true
    · simp only [hb, if_true]
      exact (ih.cons b).trans (List.Perm.swap a b rest)
    · simp [hb]

theorem insertSorted_pairwise {le : α → α → Bool}
    (htrans : ∀ a b c, le a b = true → le b c = true → le a c = true)
    (htotal : ∀ a b, le a b || le b a) (a : α) :
    ∀ l : List α, l.Pairwise (fun x y => le x y = true) →
      (insertSorted le a l).Pairwise (fun x y => le x y = true) := by
  intro l
  induction l with
  | nil => intro _; simp [insertSorted]
  | cons b rest ih =>
    intro hpw
    rw [List.pairwise_cons] at hpw
    obtain ⟨hb, hrest⟩ := hpw
    unfold insertSorted
    by_cases hba : le b a = true
    · simp only [hba, if_true]
      rw [List.pairwise_cons]
      refine ⟨?_, ih hrest⟩
      intro x hx
      have hx2 : x ∈ a :: rest := (insertSorted_perm le a rest).mem_iff.mp hx
      rcases List.mem_cons.mp hx2 with h | h
      · exact h ▸ hba
      · exact hb x h
    · have hab : le a b = true := by
        have := htotal a b
        rcases Bool.or_eq_true _ _ |>.mp this with h | h
        · exact h
        · exact absurd h hba
      rw [Bool.not_eq_true] at hba
      simp only [hba, Bool.false_eq_true, if_false]
      rw [List.pairwise_cons]
      constructor
      · intro x hx
        rcases List.mem_cons.mp hx with h | h
        · exact h ▸ hab
        · exact htrans a b x hab (hb x h)
      · rw [List.pairwise_cons]
        exact ⟨hb, hrest⟩

theorem stableSort_aux_perm (le : α → α → Bool) :
    ∀ (l acc : List α),
      (l.foldl (fun acc x => insertSorted le x acc) acc).Perm (acc ++ l) := by
  intro l
  induction l with
  | nil => intro acc; simp
  | cons x rest ih =>
    intro acc
    have h1 := ih (insertSorted le x acc)
    have h2 : (insertSorted le x acc ++ rest).Perm (acc ++ x :: rest) := by
      have h3 : (insertSorted le x acc).Perm (x :: acc) := insertSorted_perm le x acc
      exact (h3.append_right rest).trans List.perm_middle.symm
    exact h1.trans h2

theorem stableSort_perm (le : α → α → Bool) (l : List α) :
    (stableSort le l).Perm l := by
  have := stableSort_aux_perm le l []
  simpa [stableSort] using this

theorem stableSort_pairwise {le : α → α → Bool}
    (htrans : ∀ a b c, le a b = true → le b c = true → le a c = true)
    (htotal : ∀ a b, le a b || le b a) (l : List α) :
    (stableSort le l).Pairwise (fun x y => le x y = true) := by
  suffices h : ∀ (l acc : List α), acc.Pairwise (fun x y => le x y = true) →
      (l.foldl (fun acc x => insertSorted le x acc) acc).Pairwise (fun x y => le x y = true) by
    exact h l [] (by simp)
  intro l
  induction l with
  | nil => intro acc hacc; simpa using hacc
  | cons x rest ih =>
    intro acc hacc
    exact ih (insertSorted le x acc) (insertSorted_pairwise htrans htotal x acc hacc)

theorem matchKeyLe_trans (a b c : (List Char) × Int) :
    matchKeyLe a b = true → matchKeyLe b c = true → matchKeyLe a c = true := by
  simp only [matchKeyLe, Bool.or_eq_true, Bool.and_eq_true, decide_eq_true_eq]
  omega

theorem matchKeyLe_total (a b : (List Char) × Int) :
    matchKeyLe a b || matchKeyLe b a := by
  simp only [matchKeyLe, Bool.or_eq_true, Bool.and_eq_true, decide_eq_true_eq]
  omega

/-- C4: `find_best_match` discards candidates with score ≤ 0 and yields no
match exactly when none survive; otherwise the winner is a surviving
candidate of maximal score, with the shorter display name preferred among
equal scores.  The function is pure, so two runs on the same inputs
trivially agree. -/
theorem find_best_match_correct (columns kws pri avs : List (List Char)) :
    ((find_best_match columns kws pri avs).1 = none ↔
      ∀ col ∈ columns, score_match col kws pri avs ≤ 0) ∧
    (∀ best, (find_best_match columns kws pri avs).1 = some best →
      best ∈ columns ∧ 0 < score_match best kws pri avs ∧
      ∀ col ∈ columns, 0 < score_match col kws pri avs →
        (score_match col kws pri avs < score_match best kws pri avs ∨
          (score_match col kws pri avs = score_match best kws pri avs ∧
            best.length ≤ col.length))) := by
  classical
  have hmem : ∀ (c : List Char) (s : Int),
      (c, s) ∈ columns.filterMap (fun col =>
        if 0 < score_match col kws pri avs then
          some (col, score_match col kws pri avs)
        else none) ↔
      c ∈ columns ∧ s = score_match c kws pri avs ∧ 0 < s := by
    intro c s
    simp only [List.mem_filterMap]
    constructor
    · rintro ⟨a, ha, hfa⟩
      split_ifs at hfa with h
      · rw [Option.some_inj, Prod.mk.injEq] at hfa
        obtain ⟨rfl, rfl⟩ := hfa
        exact ⟨ha, rfl, h⟩
    · rintro ⟨hc, rfl, hpos⟩
      exact ⟨c, hc, by simp [hpos]⟩
  cases hscored : columns.filterMap (fun col =>
      if 0 < score_match col kws pri avs then
        some (col, score_match col kws pri avs)
      else none) with
  | nil =>
    have hfb : find_best_match columns kws pri avs = (none, []) := by
      unfold find_best_match
      rw [hscored]
      rfl
    have hall : ∀ col ∈ columns, score_match col kws pri avs ≤ 0 := by
      intro col hcol
      by_contra hgt
      push_neg at hgt
      have := (hmem col (score_match col kws pri avs)).mpr ⟨hcol, rfl, hgt⟩
      rw [hscored] at this
      exact absurd this (List.not_mem_nil _)
    refine ⟨⟨fun _ => hall, fun _ => by rw [hfb]⟩, ?_⟩
    intro best hbest
    rw [hfb] at hbest
    exact absurd hbest (by simp)
  | cons hd tl =>
    have hperm : (stableSort matchKeyLe (hd :: tl)).Perm (hd :: tl) :=
      stableSort_perm _ _
    have hsne : stableSort matchKeyLe (hd :: tl) ≠ [] := by
      intro h
      have := hperm.length_eq
      rw [h] at this
      simp at this
    obtain ⟨b, rest, hbr⟩ : ∃ b rest, stableSort matchKeyLe (hd :: tl) = b :: rest := by
      cases hs : stableSort matchKeyLe (hd :: tl) with
      | nil => exact absurd hs hsne
      | cons x r => exact ⟨x, r, rfl⟩
    have hfb : find_best_match columns kws pri avs = (some b.1, b :: rest) := by
      unfold find_best_match
      rw [hscored]
      simp [hbr]
    have hpw := stableSort_pairwise matchKeyLe_trans matchKeyLe_total (hd :: tl)
    rw [hbr] at hpw hperm
    rw [List.pairwise_cons] at hpw
    obtain ⟨hble, _⟩ := hpw
    have hbmem : b ∈ columns.filterMap (fun col =>
        if 0 < score_match col kws pri avs then
          some (col, score_match col kws pri avs)
        else none) := by
      rw [hscored]
      exact hperm.mem_iff.mp (List.mem_cons_self b rest)
    have hbprops : b.1 ∈ columns ∧ b.2 = score_match b.1 kws pri avs ∧ 0 < b.2 :=
      (hmem b.1 b.2).mp (by rwa [Prod.mk.eta])
    obtain ⟨hbcol, hbscore, hbpos⟩ := hbprops
    refine ⟨⟨?_, ?_⟩, ?_⟩
    · intro h
      rw [hfb] at h
      exact absurd h (by simp)
    · intro hall
      have := hall b.1 hbcol
      rw [← hbscore] at this
      omega
    · intro best hbest
      rw [hfb, Option.some_inj] at hbest
      subst hbest
      refine ⟨hbcol, by rw [← hbscore]; exact hbpos, ?_⟩
      intro col hcol hcolpos
      have hx : (col, score_match col kws pri avs) ∈ hd :: tl := by
        rw [← hscored]
        exact (hmem _ _).mpr ⟨hcol, rfl, hcolpos⟩
      have hx2 : (col, score_match col kws pri avs) ∈ b :: rest :=
        hperm.mem_iff.mpr hx
      rcases List.mem_cons.mp hx2 with heq | hmemr
      · rw [Prod.ext_iff] at heq
        obtain ⟨h1, h2⟩ := heq
        right
        constructor
        · rw [← hbscore]
          exact h2
        · rw [← h1]
      · have hle := hble _ hmemr
        simp only [matchKeyLe, Bool.or_eq_true, Bool.and_eq_true, decide_eq_true_eq] at hle
        rcases hle with hlt | ⟨heqs, hlen⟩
        · left; omega
        · right
          exact ⟨by omega, hlen⟩

/-- Witness for C4 at a concrete input: with keyword "price" over columns
["price", "cost"], the winner returned is "price", a member with positive
score. -/
theorem find_best_match_correct_witness :
    "price".data ∈ [("price".data : List Char), "cost".data] ∧
    0 < score_match "price".data ["price".data] [] [] :=
  have h := (find_best_match_correct ["price".data, "cost".data]
    ["price".data] [] []).2 ("price".data) (by decide)
  ⟨h.1, h.2.1⟩

/-! ### Duration computation -/

theorem fullMonthsLoop_eq (cur target : ℕ) :
    fullMonthsLoop cur target = target - cur := by
  suffices h : ∀ n cur target, target - cur = n →
      fullMonthsLoop cur target = target - cur from h _ cur target rfl
  intro n
  induction n with
  | zero =>
    intro cur target h0
    have hlt : ¬ cur < target := by omega
    unfold fullMonthsLoop
    simp [hlt, h0]
  | succ n ih =>
    intro cur target h
    have hlt : cur < target := by omega
    unfold fullMonthsLoop
    simp only [hlt, dif_pos]
    rw [ih (cur + 1) target (by omega)]
    omega

theorem range_filter_gt_length (a : ℕ) :
    ∀ n : ℕ, ((List.range n).filter (fun i => a < i)).length = n - (a + 1) := by
  intro n
  induction n with
  | zero => simp
  | succ n ih =>
    rw [List.range_succ, List.filter_append, List.length_append, ih]
    by_cases h : a < n
    · simp [h]
      omega
    · simp [h]
      omega

theorem monthsStrictlyBetween_eq (s e : PDate) :
    monthsStrictlyBetween s e = monthIdx e - (monthIdx s + 1) := by
  unfold monthsStrictlyBetween
  rw [range_filter_gt_length]

/-- C2: for every pair of (possibly unparseable) Start/End inputs, the
computed duration is `none` when either is missing or Start is strictly
after End, and otherwise equals the start-month remaining fraction plus
the count of whole calendar months strictly between the two months plus
the end-month elapsed fraction, rounded to two decimal places. -/
theorem calculate_no_of_months_correct (start stop : Option PDate) :
    calculate_no_of_months start stop =
      match start, stop with
      | some s, some e => if dateLt e s then none else some (duration_spec s e)
      | _, _ => none := by
  match start, stop with
  | none, none => rfl
  | none, some e => rfl
  | some s, none => rfl
  | some s, some e =>
    by_cases h : dateLt e s = true
    · simp [calculate_no_of_months, h]
    · simp only [calculate_no_of_months, h, Bool.false_eq_true, if_false,
        duration_spec, Option.some_inj]
      rw [fullMonthsLoop_eq, monthsStrictlyBetween_eq]

/-- C1 counterexample: for Start `2024-01-15` and End `2024-03-10` the code
computes 1.87, not 0.87, and there is exactly one whole calendar month
(February 2024) strictly between the two months, not zero. -/
theorem calc_months_jan_mar_2024_not_087 :
    calculate_no_of_months (some ⟨2024, 1, 15⟩) (some ⟨2024, 3, 10⟩) ≠
      some (87 / 100 : ℚ) ∧
    monthsStrictlyBetween ⟨2024, 1, 15⟩ ⟨2024, 3, 10⟩ ≠ 0 := by
  constructor
  · simp only [calculate_no_of_months, dateLt, monthLength, monthIdx, isLeapYear]
    norm_num [fullMonthsLoop_eq, round2]
  · rw [monthsStrictlyBetween_eq]
    simp [monthIdx]

/-- C1 (amended): for Start `2024-01-15` and End `2024-03-10` the computed
duration is 1.87 — first-month fraction (31-15+1)/31, ONE whole month
(February) in between, last-month fraction 10/31, rounded to 2 decimals. -/
theorem calc_months_jan_mar_2024_amended :
    calculate_no_of_months (some ⟨2024, 1, 15⟩) (some ⟨2024, 3, 10⟩)
      = some (187 / 100 : ℚ) ∧
    monthsStrictlyBetween ⟨2024, 1, 15⟩ ⟨2024, 3, 10⟩ = 1 ∧
    round2 ((31 - 15 + 1 : ℚ) / 31 + 1 + 10 / 31) = 187 / 100 := by
  refine ⟨?_, ?_, ?_⟩
  · simp only [calculate_no_of_months, dateLt, monthLength, monthIdx, isLeapYear]
    norm_num [fullMonthsLoop_eq, round2]
  · rw [monthsStrictlyBetween_eq]
    simp [monthIdx]
  · norm_num [round2]

/-! ### Header row detection -/

theorem header_scan_none :
    ∀ (g : List (List Cell)) (i : ℕ),
      header_row_scan g i = none ↔ ∀ row ∈ g, countNonEmpty row < 9 := by
  intro g
  induction g with
  | nil => intro i; simp [header_row_scan]
  | cons row rest ih =>
    intro i
    unfold header_row_scan
    by_cases h : 9 ≤ countNonEmpty row
    · rw [if_pos h]
      constructor
      · intro hfalse; exact absurd hfalse (by simp)
      · intro hall
        have := hall row (List.mem_cons_self row rest)
        omega
    · rw [if_neg h, ih (i + 1)]
      constructor
      · intro hall r hr
        rcases List.mem_cons.mp hr with rfl | hr2
        · omega
        · exact hall r hr2
      · intro hall r hr
        exact hall r (List.mem_cons_of_mem row hr)

theorem header_scan_some :
    ∀ (g : List (List Cell)) (i k : ℕ), header_row_scan g i = some k →
      i ≤ k ∧ k - i < g.length ∧ 9 ≤ countNonEmpty (g.getD (k - i) []) ∧
      ∀ j < k - i, countNonEmpty (g.getD j []) < 9 := by
  intro g
  induction g with
  | nil => intro i k h; exact absurd h (by simp [header_row_scan])
  | cons row rest ih =>
    intro i k h
    unfold header_row_scan at h
    by_cases hc : 9 ≤ countNonEmpty row
    · rw [if_pos hc, Option.some_inj] at h
      subst h
      refine ⟨le_rfl, by simp, by simpa using hc, ?_⟩
      intro j hj
      omega
    · rw [if_neg hc] at h
      obtain ⟨h1, h2, h3, h4⟩ := ih (i + 1) k h
      have hki : k - i = (k - (i + 1)) + 1 := by omega
      refine ⟨by omega, by simp; omega, ?_, ?_⟩
      · rw [hki]
        simpa using h3
      · intro j hj
        match j with
        | 0 => simpa using (by omega : countNonEmpty row < 9)
        | j' + 1 =>
          have : j' < k - (i + 1) := by omega
          simpa using h4 j' this

/-- C5: scanning grid rows top to bottom, the first row with at least 9
non-empty cells is the header row; when no row qualifies the locator
yields `none` and the extraction returns an empty table instead of
failing. -/
theorem header_locator_correct (grid : List (List Cell)) :
    (header_row_index grid = none ↔ ∀ row ∈ grid, countNonEmpty row < 9) ∧
    (∀ i, header_row_index grid = some i →
      i < grid.length ∧ 9 ≤ countNonEmpty (grid.getD i []) ∧
      ∀ j < i, countNonEmpty (grid.getD j []) < 9) ∧
    (∀ groups hy fileName, header_row_index grid = none →
      extract_standardized_dataframe groups grid hy fileName = []) := by
  refine ⟨header_scan_none grid 0, ?_, ?_⟩
  · intro i h
    have := header_scan_some grid 0 i h
    simpa using this
  · intro groups hy fileName h
    unfold extract_standardized_dataframe
    rw [h]

/-- Witness for C5: on a grid whose 0-indexed row 2 is the first with
exactly 9 non-empty cells the locator yields 2 (so that row qualifies and
the row above does not), and on a one-row grid with no qualifying row the
extraction yields the empty table. -/
theorem header_locator_correct_witness :
    (9 ≤ countNonEmpty
        ([[some ('a' :: [])], [],
          [some [], some [], some [], some [], some [], some [], some [],
            some [], some []]].getD 2 []) ∧
      countNonEmpty
        ([[some ('a' :: [])], [],
          [some [], some [], some [], some [], some [], some [], some [],
            some [], some []]].getD 0 []) < 9) ∧
    extract_standardized_dataframe [] [[some ('a' :: [])]] (fun _ => none) [] = [] := by
  constructor
  · have h := (header_locator_correct
      [[some ('a' :: [])], [],
        [some [], some [], some [], some [], some [], some [], some [],
          some [], some []]]).2.1 2 (by decide)
    exact ⟨h.2.1, h.2.2 0 (by norm_num)⟩
  · exact (header_locator_correct [[some ('a' :: [])]]).2.2 [] (fun _ => none) [] (by decide)

/-! ### Hyperlink reconciliation -/

/-- C6: per data row, the hyperlink map is consulted across all candidate
columns first and the first candidate with a recorded target wins — even
when an earlier candidate has URL-looking visible text; only when no
candidate has a recorded hyperlink does the visible-text fallback run, and
then the first candidate whose visible text yields a URL wins. -/
theorem resolve_row_link_priority (hy : ℕ × ℕ → Option (List Char)) (xlRow : ℕ)
    (cellAt : ℕ → Option (List Char)) :
    (∀ (l₁ l₂ : List ℕ) (c : ℕ) (u : List Char),
      recorded_url hy xlRow c = some u →
      (∀ c' ∈ l₁, recorded_url hy xlRow c' = none) →
      resolve_row_link hy xlRow (l₁ ++ c :: l₂) cellAt = some u) ∧
    (∀ (l₁ l₂ : List ℕ) (c : ℕ) (u : List Char),
      (∀ c' ∈ l₁ ++ c :: l₂, recorded_url hy xlRow c' = none) →
      (∀ c' ∈ l₁, (cellAt c').bind visible_text_url = none) →
      (cellAt c).bind visible_text_url = some u →
      resolve_row_link hy xlRow (l₁ ++ c :: l₂) cellAt = some u) := by
  constructor
  · intro l₁ l₂ c u hc hnone
    have h1 : l₁.filterMap (fun c => recorded_url hy xlRow c) = [] := by
      rw [List.filterMap_eq_nil_iff]
      exact hnone
    simp only [resolve_row_link, List.filterMap_append, h1, List.nil_append,
      List.filterMap_cons, hc]
    simp
  · intro l₁ l₂ c u hmap hvis hc
    have h1 : (l₁ ++ c :: l₂).filterMap (fun c => recorded_url hy xlRow c) = [] := by
      rw [List.filterMap_eq_nil_iff]
      exact hmap
    have h2 : l₁.filterMap (fun c' => (cellAt c').bind visible_text_url) = [] := by
      rw [List.filterMap_eq_nil_iff]
      exact hvis
    simp only [resolve_row_link, h1, List.isEmpty_nil, if_pos,
      List.filterMap_append, h2, List.nil_append, List.filterMap_cons, hc]
    simp

/-- Witness for C6, mirroring the specification's example: candidate
column 0 has visible text `www.example.com/photo` and no recorded link,
candidate column 1 has recorded target `https://cdn.example.com/x.jpg`;
the resolved link is column 1's recorded target. -/
theorem resolve_row_link_priority_witness :
    resolve_row_link
      (fun p => if p = (5, 1) then some ("https://cdn.example.com/x.jpg".data) else none)
      5 [0, 1]
      (fun c => if c = 0 then some ("www.example.com/photo".data) else none)
      = some ("https://cdn.example.com/x.jpg".data) :=
  (resolve_row_link_priority
      (fun p => if p = (5, 1) then some ("https://cdn.example.com/x.jpg".data) else none)
      5
      (fun c => if c = 0 then some ("www.example.com/photo".data) else none)).1
    [0] [] 1 ("https://cdn.example.com/x.jpg".data) (by decide) (by decide)

/-! ### Dimension normalization -/

theorem subSpaceM_no_m : ∀ l : List Char, 'm' ∉ subSpaceM l := by
  intro l
  induction l with
  | nil => simp [subSpaceM]
  | cons c rest ih =>
    unfold subSpaceM
    split
    · exact ih
    · split
      · exact ih
      · next h1 _ =>
        intro hmem
        rcases List.mem_cons.mp hmem with heq | hr
        · exact h1 heq.symm
        · exact ih hr

/-- C7 counterexample: the code removes every unit marker `m`, not only a
trailing one — on input `"m2"` it returns `"2"`, while the claim's
trailing-only reading returns `"m2"` unchanged. -/
theorem normalize_dimension_not_trailing_only :
    normalize_dimension (some ("m2".data)) = some ("2".data) ∧
    normalize_dimension_trailing (some ("m2".data)) = some ("m2".data) ∧
    ("2".data : List Char) ≠ "m2".data := by
  refine ⟨by decide, by decide, by decide⟩

/-- C7 (amended): `normalize_dimension` yields `none` for missing or blank
input; otherwise it lower-cases, trims, converts commas to periods and
removes EVERY unit marker `m` (with the whitespace run just before it),
wherever it occurs — so the result never contains `m`; in particular
`"2,5 m"` maps to `"2.5"`. -/
theorem normalize_dimension_amended :
    normalize_dimension none = none ∧
    (∀ s, pyStrip s = [] → normalize_dimension (some s) = none) ∧
    (∀ s r, normalize_dimension (some s) = some r → 'm' ∉ r) ∧
    normalize_dimension (some ("2,5 m".data)) = some ("2.5".data) := by
  refine ⟨rfl, ?_, ?_, by decide⟩
  · intro s h
    simp [normalize_dimension, h]
  · intro s r h
    simp only [normalize_dimension] at h
    by_cases hb : pyStrip s = []
    · rw [if_pos hb] at h
      exact absurd h (by simp)
    · rw [if_neg hb, Option.some_inj] at h
      exact h ▸ subSpaceM_no_m _

/-- Witness for C7 at the concrete input `"2,5 m"`: the result is `"2.5"`
and contains no unit marker. -/
theorem normalize_dimension_amended_witness :
    normalize_dimension (some ("2,5 m".data)) = some ("2.5".data) ∧
    'm' ∉ ("2.5".data : List Char) :=
  ⟨by decide, normalize_dimension_amended.2.2.1 ("2,5 m".data) ("2.5".data) (by decide)⟩

/-- C8 counterexample: with Base "2", Height "3" and a present Size "5"
that does not split into two parts, the code keeps Size "5" and does NOT
synthesize "2m x 3m" — synthesis happens only when Size is blank. -/
theorem process_size_no_synthesis_counterexample :
    process_size_base_height (some ("2".data)) (some ("3".data)) (some ("5".data))
      = (some ("2m".data), some ("3m".data), some ("5".data)) ∧
    (some ("5".data) : Option (List Char)) ≠ some ("2m x 3m".data) := by
  refine ⟨by decide, by decide⟩

/-- C8 (amended): when Size is present (non-blank) and splits on `x`/`X`
into exactly two parts, Base and Height are recomputed from those parts and
Size is kept; when Size is present but does not split into two parts,
Base/Height keep their normalized input values and Size is kept; only when
Size is blank and both normalized Base and Height are non-empty is Size
synthesized as `"{base}m x {height}m"`; otherwise all three pass through
(with the `m` suffix added to truthy Base/Height, and blank Size mapped to
`none` unless the raw Size text was a non-empty whitespace string). -/
theorem process_size_base_height_cases (b h s : Option (List Char)) :
    (¬ pyStrip (s.getD []) = [] → (splitOnXx (s.getD [])).length = 2 →
      process_size_base_height b h s =
        (mSuffix (normalize_dimension (some ((splitOnXx (s.getD [])).getD 0 []))),
         mSuffix (normalize_dimension (some ((splitOnXx (s.getD [])).getD 1 []))),
         some (s.getD []))) ∧
    (¬ pyStrip (s.getD []) = [] → (splitOnXx (s.getD [])).length ≠ 2 →
      process_size_base_height b h s =
        (mSuffix (normalize_dimension b), mSuffix (normalize_dimension h),
         some (s.getD []))) ∧
    (pyStrip (s.getD []) = [] →
      truthyStr (normalize_dimension b) = true →
      truthyStr (normalize_dimension h) = true →
      process_size_base_height b h s =
        (mSuffix (normalize_dimension b), mSuffix (normalize_dimension h),
         some (((normalize_dimension b).getD []) ++ "m x ".data ++
           ((normalize_dimension h).getD []) ++ ['m']))) ∧
    (pyStrip (s.getD []) = [] →
      ¬ (truthyStr (normalize_dimension b) = true ∧ truthyStr (normalize_dimension h) = true) →
      process_size_base_height b h s =
        (mSuffix (normalize_dimension b), mSuffix (normalize_dimension h),
         if (s.getD []).isEmpty then none else some (s.getD []))) := by
  have hne : ¬ pyStrip (s.getD []) = [] → (s.getD []).isEmpty = false := by
    intro hp
    cases hs : s.getD [] with
    | nil => rw [hs] at hp; exact absurd rfl hp
    | cons c rest => rfl
  refine ⟨?_, ?_, ?_, ?_⟩
  · intro h1 h2
    have hb : (!(pyStrip (s.getD [])).isEmpty) = true := by
      simp [List.isEmpty_iff, h1]
    simp only [process_size_base_height, hb, if_pos, h2, if_true, hne h1,
      Bool.false_eq_true, if_false]
  · intro h1 h2
    have hb : (!(pyStrip (s.getD [])).isEmpty) = true := by
      simp [List.isEmpty_iff, h1]
    simp only [process_size_base_height, hb, if_pos, h2, if_false, hne h1,
      Bool.false_eq_true]
  · intro h1 h2 h3
    have hb : (!(pyStrip (s.getD [])).isEmpty) = false := by
      simp [List.isEmpty_iff, h1]
    have hsynth : (((normalize_dimension b).getD []) ++ "m x ".data ++
        ((normalize_dimension h).getD []) ++ ['m']).isEmpty = false := by
      simp [List.isEmpty_iff]
    simp only [process_size_base_height, hb, Bool.false_eq_true, if_false,
      h2, h3, Bool.and_self, if_true, hsynth]
  · intro h1 h2
    have hb : (!(pyStrip (s.getD [])).isEmpty) = false := by
      simp [List.isEmpty_iff, h1]
    have hand : (truthyStr (normalize_dimension b) && truthyStr (normalize_dimension h)) = false := by
      by_cases htb : truthyStr (normalize_dimension b) = true
      · by_cases hth : truthyStr (normalize_dimension h) = true
        · exact absurd ⟨htb, hth⟩ h2
        · rw [Bool.not_eq_true] at hth
          simp [hth]
      · rw [Bool.not_eq_true] at htb
        simp [htb]
    simp only [process_size_base_height, hb, Bool.false_eq_true, if_false, hand]

/-- Witness for C8 at the specification's example: inputs Base none,
Height none, Size "2.5x3" yield Base "2.5m", Height "3m", Size "2.5x3". -/
theorem process_size_base_height_cases_witness :
    process_size_base_height none none (some ("2.5x3".data))
      = (some ("2.5m".data), some ("3m".data), some ("2.5x3".data)) := by
  have hcase := (process_size_base_height_cases none none (some ("2.5x3".data))).1
    (by decide) (by decide)
  rw [hcase]
  decide

/-! ### Literal date recovery -/

/-- C9 counterexample: a record with a missing Start and a present End has
no marker pattern, yet the recovery stage does NOT leave it unchanged — it
clears End to `none` as well. -/
theorem extract_disponibil_missing_start_clears_end :
    extract_disponibil none (some ("2024-05-01".data)) = (none, none) ∧
    ((none, none) : Option (List Char) × Option (List Char)) ≠
      (none, some ("2024-05-01".data)) := by
  refine ⟨rfl, by simp⟩

/-- C9 (amended): for every record whose Start text is present and does not
contain the literal-range marker pattern, the recovery stage leaves both
Start and End unchanged; a record with a missing Start, however, has both
Start and End set to `none`.  Row-wise, a table whose every Start is
present and marker-free passes through the stage unchanged. -/
theorem extract_disponibil_frame :
    (∀ s cEnd, searchDisp s = none → extract_disponibil (some s) cEnd = (some s, cEnd)) ∧
    (∀ cEnd, extract_disponibil none cEnd = (none, none)) ∧
    (∀ rows, (∀ r ∈ rows, ∃ s, r.1 = some s ∧ searchDisp s = none) →
      deal_with_literal_dates rows = rows) := by
  refine ⟨?_, fun _ => rfl, ?_⟩
  · intro s cEnd h
    simp [extract_disponibil, h]
  · intro rows hall
    unfold deal_with_literal_dates
    have hcong : rows.map (fun r => extract_disponibil r.1 r.2) = rows.map id := by
      apply List.map_congr_left
      intro r hr
      obtain ⟨s, hs, hsd⟩ := hall r hr
      rw [hs]
      simp [extract_disponibil, hsd, ← hs]
    rw [hcong, List.map_id]

/-- Witness for C9 at a concrete marker-free record: Start "hello" and End
"x" pass through the recovery stage unchanged. -/
theorem extract_disponibil_frame_witness :
    extract_disponibil (some ("hello".data)) (some ("x".data))
      = (some ("hello".data), some ("x".data)) :=
  extract_disponibil_frame.1 ("hello".data) (some ("x".data)) (by decide)

/-! ### Extraction invariants for the link-bearing fields -/

/-- C10: the extracted table always carries the "Photo Link" and
"Tech Details" columns; a configuration entry whose normalized name is
"photo link" or "tech details" is skipped entirely (removing it leaves the
extraction unchanged, so it is never matched via the field matcher); and
the candidate source columns for the two link fields are exactly the
columns whose normalized header lies in the fixed built-in header sets,
taken in column order. -/
theorem extract_photo_tech_invariants :
    (∀ (groups : List ((List Char) × FieldCfg)) (grid : List (List Cell)) hy fileName hIdx,
      header_row_index grid = some hIdx →
      ("Photo Link".data ∈
          (extract_standardized_dataframe groups grid hy fileName).map Prod.fst ∧
        "Tech Details".data ∈
          (extract_standardized_dataframe groups grid hy fileName).map Prod.fst)) ∧
    (∀ (name : List Char) (cfg : FieldCfg) pre post (grid : List (List Cell)) hy fileName,
      (normalize_text name = "photo link".data ∨ normalize_text name = "tech details".data) →
      extract_standardized_dataframe (pre ++ (name, cfg) :: post) grid hy fileName =
        extract_standardized_dataframe (pre ++ post) grid hy fileName) ∧
    (∀ columns : List (List Char),
      (candidate_cols_photo columns).Sublist columns ∧
      ∀ c, c ∈ candidate_cols_photo columns ↔
        (c ∈ columns ∧ normalize_text c ∈ HYPERLINK_HEADERS)) ∧
    (∀ columns : List (List Char),
      (candidate_cols_tech columns).Sublist columns ∧
      ∀ c, c ∈ candidate_cols_tech columns ↔
        (c ∈ columns ∧ normalize_text c ∈ TECH_DETAILS_HEADERS)) := by
  refine ⟨?_, ?_, ?_, ?_⟩
  · intro groups grid hy fileName hIdx hh
    simp only [extract_standardized_dataframe, hh]
    exact ⟨List.mem_map_of_mem Prod.fst (List.mem_cons_self _ _),
      List.mem_map_of_mem Prod.fst (List.mem_cons_of_mem _ (List.mem_cons_self _ _))⟩
  · intro name cfg pre post grid hy fileName hname
    have hfalse : (!(isLinkFieldName (name, cfg).1)) = false := by
      rcases hname with h | h <;> simp [isLinkFieldName, h]
    have key : (pre ++ (name, cfg) :: post).filter (fun g => !(isLinkFieldName g.1))
        = (pre ++ post).filter (fun g => !(isLinkFieldName g.1)) := by
      rw [List.filter_append, List.filter_append, List.filter_cons]
      simp [hfalse]
    cases hh : header_row_index grid with
    | none => simp [extract_standardized_dataframe, hh]
    | some hIdx =>
      simp only [extract_standardized_dataframe, hh]
      rw [key]
  · intro columns
    constructor
    · simp only [candidate_cols_photo]
      exact List.filter_sublist columns
    · intro c
      simp [candidate_cols_photo, List.mem_filter]
  · intro columns
    constructor
    · simp only [candidate_cols_tech]
      exact List.filter_sublist columns
    · intro c
      simp [candidate_cols_tech, List.mem_filter]

/-- Witness for C10: on a one-row grid with nine headers (including
"poza"), the extracted table carries "Photo Link"; a configuration whose
single entry normalizes to "photo link" extracts identically to the empty
configuration; and "poza" is a photo candidate column. -/
theorem extract_photo_tech_invariants_witness :
    ("Photo Link".data ∈
        (extract_standardized_dataframe []
          [[some ("poza".data), some ("a".data), some ("b".data), some ("c".data),
            some ("d".data), some ("e".data), some ("f".data), some ("g".data),
            some ("h".data)]] (fun _ => none) []).map Prod.fst) ∧
    extract_standardized_dataframe [("Photo  Link".data, ⟨[], [], []⟩)]
        [[some ("poza".data), some ("a".data), some ("b".data), some ("c".data),
          some ("d".data), some ("e".data), some ("f".data), some ("g".data),
          some ("h".data)]] (fun _ => none) []
      = extract_standardized_dataframe []
        [[some ("poza".data), some ("a".data), some ("b".data), some ("c".data),
          some ("d".data), some ("e".data), some ("f".data), some ("g".data),
          some ("h".data)]] (fun _ => none) [] ∧
    "poza".data ∈ candidate_cols_photo [("poza".data : List Char)] :=
  ⟨(extract_photo_tech_invariants.1 []
      [[some ("poza".data), some ("a".data), some ("b".data), some ("c".data),
        some ("d".data), some ("e".data), some ("f".data), some ("g".data),
        some ("h".data)]] (fun _ => none) [] 0 (by decide)).1,
   extract_photo_tech_invariants.2.1 ("Photo  Link".data) ⟨[], [], []⟩ [] []
      [[some ("poza".data), some ("a".data), some ("b".data), some ("c".data),
        some ("d".data), some ("e".data), some ("f".data), some ("g".data),
        some ("h".data)]] (fun _ => none) [] (Or.inl (by decide)),
   ((extract_photo_tech_invariants.2.2.1 [("poza".data : List Char)]).2
      ("poza".data)).mpr ⟨by decide, by decide⟩⟩
